import Mathlib

/-!
Shallow embedding of the LogHunter core (loghunter.py): the Line Record data
model, the Log Store query operations, the statistics aggregator, the pattern
normalizer and the time-argument parser, together with theorems settling the
frozen claims about them.

Conventions of the embedding:
  * a Python `List[LogLine]` becomes `List LogLine`;
  * absolute instants (`datetime`) become `Int` seconds counted from
    0001-01-01T00:00:00 in the proleptic Gregorian calendar (the same ordinal
    base Python's `datetime.toordinal` uses); `Optional[datetime]` becomes
    `Option Int`;
  * fallible operations return `Option`/`Except`;
  * Python slice arithmetic on non-negative indices maps to `List.take`/
    `List.drop` with truncated `Nat` subtraction playing the role of
    `max(0, a - b)`.
-/

namespace LogHunter

/-- A Line Record: one raw log line annotated with its source file, 1-based
line number, optionally extracted timestamp and optionally extracted level.
Mirrors the fields stored by `LogLine.__init__`. -/
structure LogLine where
  line : String
  line_num : Nat
  file_path : String
  timestamp : Option Int
  level : Option String
deriving DecidableEq, Inhabited

/-- Model of Python `str.upper` (ASCII case mapping on the underlying
characters). -/
def upper (s : String) : String :=
  String.mk (s.data.map Char.toUpper)

/-- `LogLine.matches_level`: the record's level is present and is a member of
the uppercased query levels (`self.level in [l.upper() for l in levels]`). -/
def matches_level (r : LogLine) (levels : List String) : Bool :=
  match r.level with
  | none => false
  | some lv => (levels.map upper).contains lv

/-- `LogHunter.filter_by_level`: keep the lines matching any of the levels,
in store order (a list comprehension over `self.lines`). -/
def filter_by_level (lines : List LogLine) (levels : List String) : List LogLine :=
  lines.filter (fun r => matches_level r levels)

/-- `LogHunter.filter_by_time_range`: the loop keeps a line when its timestamp
is present, is not below `start` (when given) and not above `stop` (when
given), appending kept lines in store order. -/
def filter_by_time_range (lines : List LogLine) (start stop : Option Int) : List LogLine :=
  lines.foldl (fun result r =>
    match r.timestamp with
    | none => result
    | some t =>
      if start.any (fun a => t < a) then result
      else if stop.any (fun b => b < t) then result
      else result ++ [r]) []

/-- `LogHunter.head`: `self.lines[:n] if self.lines else []`. -/
def head (lines : List LogLine) (n : Nat) : List LogLine :=
  if lines.isEmpty then [] else lines.take n

/-- `LogHunter.tail`: `self.lines[-n:] if self.lines else []`. For `n = 0`
the Python slice is `lines[-0:] = lines[0:]`, the whole list; for `n ≥ 1` the
negative index clamps at 0, which truncated subtraction reproduces. -/
def tail (lines : List LogLine) (n : Nat) : List LogLine :=
  if lines.isEmpty then []
  else if n = 0 then lines
  else lines.drop (lines.length - n)

/-- Spec-side predicate for the time-range filter, worded from the spec: the
timestamp is present and satisfies `start ≤ t` and `t ≤ stop` for whichever
bounds are supplied. -/
def timeSpecPred (start stop : Option Int) (r : LogLine) : Bool :=
  match r.timestamp with
  | none => false
  | some t => (start.all fun a => a ≤ t) && (stop.all fun b => t ≤ b)

lemma filter_by_time_range_go (lines : List LogLine) (start stop : Option Int)
    (acc : List LogLine) :
    lines.foldl (fun result r =>
      match r.timestamp with
      | none => result
      | some t =>
        if start.any (fun a => t < a) then result
        else if stop.any (fun b => b < t) then result
        else result ++ [r]) acc
      = acc ++ lines.filter (fun r => timeSpecPred start stop r) := by
  induction lines generalizing acc with
  | nil => simp
  | cons r rest ih =>
    simp only [List.foldl_cons, List.filter_cons]
    rcases hts : r.timestamp with _ | t
    · simp [ih, timeSpecPred, hts]
    · by_cases hs : start.any (fun a => t < a)
      · have hps : timeSpecPred start stop r = false := by
          rcases start with _ | a
          · simp [Option.any] at hs
          · simp only [Option.any_some, decide_eq_true_eq] at hs
            simp [timeSpecPred, hts, not_le.mpr hs]
        simp [hts, hs, hps, ih]
      · by_cases he : stop.any (fun b => b < t)
        · have hps : timeSpecPred start stop r = false := by
            rcases hstop : stop with _ | b
            · simp [hstop] at he
            · subst hstop
              simp only [Option.any_some, decide_eq_true_eq] at he
              simp [timeSpecPred, hts, not_le.mpr he]
          simp [hts, hs, he, hps, ih]
        · have hps : timeSpecPred start stop r = true := by
            rcases start with _ | a <;> rcases stop with _ | b <;>
              simp_all [timeSpecPred, hts, Option.any, not_lt]
          simp only [hts, hs, he, if_false, Bool.false_eq_true, hps, if_true]
          rw [ih (acc ++ [r])]
          simp

/-- C4: for every store and optional bounds, `filter_by_time_range` returns
exactly the records, in store order, whose timestamp is present and satisfies
the supplied bounds; a record with no timestamp is never in the result. -/
theorem filter_by_time_range_spec (lines : List LogLine) (start stop : Option Int) :
    filter_by_time_range lines start stop
        = lines.filter (fun r => timeSpecPred start stop r)
      ∧ ∀ r ∈ filter_by_time_range lines start stop, r.timestamp ≠ none := by
  have h := filter_by_time_range_go lines start stop []
  refine ⟨by simpa [filter_by_time_range] using h, ?_⟩
  intro r hr hnone
  rw [show filter_by_time_range lines start stop
        = lines.filter (fun r => timeSpecPred start stop r) by
      simpa [filter_by_time_range] using h] at hr
  have := List.of_mem_filter hr
  simp [timeSpecPred, hnone] at this

/-- C4 witness: a two-record store filtered with a lower bound. -/
theorem filter_by_time_range_spec_witness :
    filter_by_time_range
        [⟨"a", 1, "f", some 5, none⟩, ⟨"b", 2, "f", none, none⟩,
         ⟨"c", 3, "f", some 9, none⟩]
        (some 6) none
      = List.filter (fun r => timeSpecPred (some 6) none r)
        [⟨"a", 1, "f", some 5, none⟩, ⟨"b", 2, "f", none, none⟩,
         ⟨"c", 3, "f", some 9, none⟩]
    ∧ (⟨"c", 3, "f", some 9, none⟩ : LogLine).timestamp ≠ none := by
  refine ⟨(filter_by_time_range_spec _ (some 6) none).1, ?_⟩
  exact (filter_by_time_range_spec
      [⟨"a", 1, "f", some 5, none⟩, ⟨"b", 2, "f", none, none⟩,
       ⟨"c", 3, "f", some 9, none⟩] (some 6) none).2
    ⟨"c", 3, "f", some 9, none⟩ (by decide)

/-- C1 counterexample: on a three-record store with pairwise distinct records
and `n = 2 < 3 = store size`, `head(2)` and `tail(2)` share the middle
record, so "for `n < size` the two results have no record in common" fails. -/
theorem head_tail_overlap_counterexample :
    2 < ([⟨"a", 1, "f", none, none⟩, ⟨"b", 2, "f", none, none⟩,
          ⟨"c", 3, "f", none, none⟩] : List LogLine).length
    ∧ ([⟨"a", 1, "f", none, none⟩, ⟨"b", 2, "f", none, none⟩,
          ⟨"c", 3, "f", none, none⟩] : List LogLine).Nodup
    ∧ (⟨"b", 2, "f", none, none⟩ : LogLine) ∈
        head [⟨"a", 1, "f", none, none⟩, ⟨"b", 2, "f", none, none⟩,
          ⟨"c", 3, "f", none, none⟩] 2
    ∧ (⟨"b", 2, "f", none, none⟩ : LogLine) ∈
        tail [⟨"a", 1, "f", none, none⟩, ⟨"b", 2, "f", none, none⟩,
          ⟨"c", 3, "f", none, none⟩] 2 := by
  decide

/-- C1 (amended): for `n ≥ store size`, `head(n)` and `tail(n)` together cover
the whole store; for a store with pairwise distinct records the two result
sequences have no record in common whenever `2·n ≤ store size` (rather than
whenever `n < store size`). -/
theorem head_tail_cover_disjoint (lines : List LogLine) (n : Nat) :
    (lines.length ≤ n → ∀ r ∈ lines, r ∈ head lines n ∨ r ∈ tail lines n)
    ∧ (lines.Nodup → 2 * n ≤ lines.length →
        ∀ r ∈ head lines n, r ∉ tail lines n) := by
  constructor
  · intro hn r hr
    left
    unfold head
    rcases lines with _ | ⟨x, rest⟩
    · simp at hr
    · simpa [List.take_of_length_le hn] using hr
  · intro hnd h2 r hrh hrt
    rcases hl : lines with _ | ⟨x, rest⟩
    · subst hl; simp [head] at hrh
    · have hne : lines.isEmpty = false := by simp [hl]
      rcases Nat.eq_zero_or_pos n with hn0 | hnpos
      · subst hn0; simp [head, hne] at hrh
      · have hrh' : r ∈ lines.take n := by simpa [head, hne] using hrh
        have hrt' : r ∈ lines.drop (lines.length - n) := by
          have : n ≠ 0 := Nat.pos_iff_ne_zero.mp hnpos
          simpa [tail, hne, this] using hrt
        have hmin : min n (lines.length - n) = n := by omega
        have hsub : r ∈ lines.take (lines.length - n) := by
          have := List.take_take n (lines.length - n) lines
          rw [hmin] at this
          exact List.take_subset n _ (this ▸ hrh')
        have hnd' : (lines.take (lines.length - n)
            ++ lines.drop (lines.length - n)).Nodup := by
          rw [List.take_append_drop]; exact hnd
        exact (List.nodup_append.mp hnd').2.2 hsub hrt'

/-- C1 witness: on a four-record store, `head(4)`/`tail(4)` cover the first
record, and for `n = 2` with `2·2 ≤ 4` the first record of `head(2)` is not
in `tail(2)`. -/
theorem head_tail_cover_disjoint_witness :
    ((⟨"a", 1, "f", none, none⟩ : LogLine) ∈
        head [⟨"a", 1, "f", none, none⟩, ⟨"b", 2, "f", none, none⟩,
          ⟨"c", 3, "f", none, none⟩, ⟨"d", 4, "f", none, none⟩] 4
      ∨ (⟨"a", 1, "f", none, none⟩ : LogLine) ∈
        tail [⟨"a", 1, "f", none, none⟩, ⟨"b", 2, "f", none, none⟩,
          ⟨"c", 3, "f", none, none⟩, ⟨"d", 4, "f", none, none⟩] 4)
    ∧ (⟨"a", 1, "f", none, none⟩ : LogLine) ∉
        tail [⟨"a", 1, "f", none, none⟩, ⟨"b", 2, "f", none, none⟩,
          ⟨"c", 3, "f", none, none⟩, ⟨"d", 4, "f", none, none⟩] 2 := by
  refine ⟨(head_tail_cover_disjoint _ 4).1 (by decide) _ (by decide), ?_⟩
  exact (head_tail_cover_disjoint
      [⟨"a", 1, "f", none, none⟩, ⟨"b", 2, "f", none, none⟩,
       ⟨"c", 3, "f", none, none⟩, ⟨"d", 4, "f", none, none⟩] 2).2
    (by decide) (by decide) _ (by decide)

/-- C2: at `n = 0` on a non-empty store the Python slice `lines[-0:]` is the
whole list, so `tail(0)` returns every record instead of the empty sequence
that "the last `min(0, size)` records" prescribes (while `head(0)` is empty,
as specified). -/
theorem tail_zero_returns_whole_store :
    tail [⟨"a", 1, "f", none, none⟩] 0 = [⟨"a", 1, "f", none, none⟩]
    ∧ head [⟨"a", 1, "f", none, none⟩] 0 = []
    ∧ ([⟨"a", 1, "f", none, none⟩] : List LogLine) ≠ [] := by
  decide

/-- C5: filtering by levels `l1` and then filtering the result by a
case-insensitive superset `l2` returns the same sequence as filtering by `l1`
alone, and the result preserves the original record order (it is a sublist
of the input). -/
theorem filter_by_level_superset_idempotent (lines : List LogLine)
    (l1 l2 : List String)
    (hsub : ∀ s ∈ l1.map upper, s ∈ l2.map upper) :
    filter_by_level (filter_by_level lines l1) l2 = filter_by_level lines l1
    ∧ (filter_by_level lines l1).Sublist lines := by
  refine ⟨?_, List.filter_sublist lines⟩
  unfold filter_by_level
  apply List.filter_eq_self.mpr
  intro r hr
  have hm : matches_level r l1 = true := (List.mem_filter.mp hr).2
  unfold matches_level at hm ⊢
  rcases hlv : r.level with _ | lv
  · rw [hlv] at hm; exact absurd hm (by simp)
  · rw [hlv] at hm
    have : lv ∈ l1.map upper := by
      simpa [List.contains, List.elem_iff] using hm
    simpa [List.contains, List.elem_iff] using hsub lv this

/-- C5 witness: a concrete two-record store, `l1 = ["error"]`,
`l2 = ["ERROR", "WARN"]`. -/
theorem filter_by_level_superset_idempotent_witness :
    filter_by_level
        (filter_by_level
          [⟨"x", 1, "f", none, some "ERROR"⟩, ⟨"y", 2, "f", none, some "INFO"⟩]
          ["error"]) ["ERROR", "WARN"]
      = filter_by_level
          [⟨"x", 1, "f", none, some "ERROR"⟩, ⟨"y", 2, "f", none, some "INFO"⟩]
          ["error"]
    ∧ (filter_by_level
          [⟨"x", 1, "f", none, some "ERROR"⟩, ⟨"y", 2, "f", none, some "INFO"⟩]
          ["error"]).Sublist
        [⟨"x", 1, "f", none, some "ERROR"⟩, ⟨"y", 2, "f", none, some "INFO"⟩] :=
  filter_by_level_superset_idempotent _ ["error"] ["ERROR", "WARN"] (by decide)

/-- The identity of a Line Record: its `(source_path, line_number)` pair,
used by `LogHunter.context` for de-duplication. -/
def lineKey (r : LogLine) : String × Nat := (r.file_path, r.line_num)

/-- One context window, the Python slice `self.lines[start:end]` with
`start = max(0, idx - before)` (truncated `Nat` subtraction) and
`end = min(len(self.lines), idx + after + 1)`. -/
def window (lines : List LogLine) (before after idx : Nat) : List LogLine :=
  (lines.drop (idx - before)).take
    (min lines.length (idx + after + 1) - (idx - before))

/-- `LogHunter.context`: concatenate the windows of all requested indices in
order, then walk the concatenation keeping a `seen` set of keys, appending a
record only when its key has not been seen. -/
def context (lines : List LogLine) (line_indices : List Nat)
    (before after : Nat) : List LogLine :=
  ((line_indices.foldl
      (fun acc idx => acc ++ window lines before after idx) []).foldl
    (fun st r =>
      if st.1.contains (lineKey r) then st
      else (lineKey r :: st.1, st.2 ++ [r]))
    (([] : List (String × Nat)), ([] : List LogLine))).2

/-- Spec-side de-duplication keeping the first occurrence of every
`(source_path, line_number)` key. -/
def dedupByKey : List LogLine → List LogLine
  | [] => []
  | r :: rest => r :: dedupByKey (rest.filter (fun y => !(lineKey y == lineKey r)))
termination_by l => l.length
decreasing_by exact Nat.lt_succ_of_le (List.length_filter_le _ _)

lemma dedupByKey_subset_aux :
    ∀ (n : Nat) (l : List LogLine), l.length = n → ∀ r ∈ dedupByKey l, r ∈ l := by
  intro n
  induction n using Nat.strong_induction_on with
  | _ n ih =>
    intro l hn
    rcases l with _ | ⟨x, rest⟩
    · intro r hr; rw [dedupByKey] at hr; exact absurd hr (List.not_mem_nil r)
    · intro r hr
      rw [dedupByKey] at hr
      rcases List.mem_cons.mp hr with h | h
      · exact h ▸ List.mem_cons_self x rest
      · have hlt : (rest.filter (fun y => !(lineKey y == lineKey x))).length < n := by
          have := List.length_filter_le (fun y => !(lineKey y == lineKey x)) rest
          simp only [← hn, List.length_cons]
          omega
        have := ih _ hlt _ rfl r h
        exact List.mem_cons_of_mem x (List.mem_of_mem_filter this)

lemma dedupByKey_subset : ∀ (l : List LogLine), ∀ r ∈ dedupByKey l, r ∈ l :=
  fun l => dedupByKey_subset_aux l.length l rfl

lemma dedupByKey_keys_nodup_aux :
    ∀ (n : Nat) (l : List LogLine), l.length = n →
      ((dedupByKey l).map lineKey).Nodup := by
  intro n
  induction n using Nat.strong_induction_on with
  | _ n ih =>
    intro l hn
    rcases l with _ | ⟨x, rest⟩
    · rw [dedupByKey]; simp
    · rw [dedupByKey]
      simp only [List.map_cons, List.nodup_cons]
      have hlt : (rest.filter (fun y => !(lineKey y == lineKey x))).length < n := by
        have := List.length_filter_le (fun y => !(lineKey y == lineKey x)) rest
        simp only [← hn, List.length_cons]
        omega
      refine ⟨?_, ih _ hlt _ rfl⟩
      intro hmem
      rcases List.mem_map.mp hmem with ⟨y, hy, hky⟩
      have hy' := dedupByKey_subset _ y hy
      have := List.of_mem_filter hy'
      simp only [hky, beq_self_eq_true, Bool.not_true] at this
      exact Bool.false_ne_true this

lemma dedupByKey_keys_nodup :
    ∀ (l : List LogLine), ((dedupByKey l).map lineKey).Nodup :=
  fun l => dedupByKey_keys_nodup_aux l.length l rfl

lemma context_concat_eq (lines : List LogLine) (idxs : List Nat)
    (before after : Nat) (acc : List LogLine) :
    idxs.foldl (fun acc idx => acc ++ window lines before after idx) acc
      = acc ++ (idxs.map (window lines before after)).flatten := by
  induction idxs generalizing acc with
  | nil => simp
  | cons i rest ih => simp [ih]

lemma context_dedup_go_aux :
    ∀ (n : Nat) (l : List LogLine), l.length = n →
    ∀ (seen : List (String × Nat)) (acc : List LogLine),
    (l.foldl (fun st r =>
        if st.1.contains (lineKey r) then st
        else (lineKey r :: st.1, st.2 ++ [r])) (seen, acc)).2
      = acc ++ dedupByKey (l.filter (fun y => !(seen.contains (lineKey y)))) := by
  intro n
  induction n using Nat.strong_induction_on with
  | _ n ih =>
    intro l hn
    rcases l with _ | ⟨x, rest⟩
    · intro seen acc; rw [List.filter_nil, dedupByKey]; simp
    · intro seen acc
      simp only [List.foldl_cons, List.filter_cons]
      by_cases hc : seen.contains (lineKey x)
      · have hrest : rest.length < n := by simp [← hn, List.length_cons]
        simp only [hc, if_true, Bool.not_true, Bool.false_eq_true, if_false]
        exact ih _ hrest _ rfl seen acc
      · have hc' : seen.contains (lineKey x) = false := by
          exact Bool.not_eq_true _ ▸ (by simpa using hc)
        have hrest : rest.length < n := by simp [← hn, List.length_cons]
        simp only [hc', Bool.false_eq_true, if_false, Bool.not_false, if_true]
        rw [ih _ hrest _ rfl (lineKey x :: seen) (acc ++ [x])]
        rw [dedupByKey, List.filter_filter]
        have hfe : rest.filter
              (fun y => (!(lineKey y == lineKey x)) && !(seen.contains (lineKey y)))
            = rest.filter (fun y => !((lineKey x :: seen).contains (lineKey y))) := by
          apply List.filter_congr
          intro y _
          rw [List.contains_cons, Bool.not_or]
        rw [hfe]
        simp

lemma context_dedup_go (l : List LogLine) :
    ∀ (seen : List (String × Nat)) (acc : List LogLine),
    (l.foldl (fun st r =>
        if st.1.contains (lineKey r) then st
        else (lineKey r :: st.1, st.2 ++ [r])) (seen, acc)).2
      = acc ++ dedupByKey (l.filter (fun y => !(seen.contains (lineKey y)))) :=
  context_dedup_go_aux l.length l rfl

lemma window_subset (lines : List LogLine) (before after idx : Nat) :
    ∀ r ∈ window lines before after idx, r ∈ lines := by
  intro r hr
  exact List.drop_subset _ _ (List.take_subset _ _ hr)

/-- C3: on in-range 0-based indices, `context` is the de-duplication (by
`(source_path, line_number)` key, first occurrence kept) of the concatenation
of the per-index windows, its result never holds two records with the same
key, every returned record belongs to the store, and each window consists of
exactly the store records at the clamped inclusive positions
`[idx - before, idx + after]`. -/
theorem context_spec (lines : List LogLine) (idxs : List Nat)
    (before after : Nat) (hin : ∀ i ∈ idxs, i < lines.length) :
    context lines idxs before after
        = dedupByKey ((idxs.map (window lines before after)).flatten)
    ∧ ((context lines idxs before after).map lineKey).Nodup
    ∧ (∀ r ∈ context lines idxs before after, r ∈ lines)
    ∧ (∀ i ∈ idxs,
        (window lines before after i).length
            = min lines.length (i + after + 1) - (i - before)
        ∧ ∀ k, k < (window lines before after i).length →
            (window lines before after i).getD k default
              = lines.getD (i - before + k) default) := by
  have hmain : context lines idxs before after
      = dedupByKey ((idxs.map (window lines before after)).flatten) := by
    unfold context
    rw [context_concat_eq lines idxs before after []]
    rw [List.nil_append]
    rw [context_dedup_go _ [] []]
    rw [List.nil_append]
    congr 1
    apply List.filter_eq_self.mpr
    intro a _
    rfl
  refine ⟨hmain, ?_, ?_, ?_⟩
  · rw [hmain]; exact dedupByKey_keys_nodup _
  · intro r hr
    rw [hmain] at hr
    have := dedupByKey_subset _ r hr
    rcases List.mem_flatten.mp this with ⟨w, hw, hrw⟩
    rcases List.mem_map.mp hw with ⟨i, _, hiw⟩
    exact window_subset lines before after i r (hiw ▸ hrw)
  · intro i hi
    have hilt : i < lines.length := hin i hi
    have hs : i - before ≤ i := Nat.sub_le i before
    constructor
    · unfold window
      rw [List.length_take, List.length_drop]
      omega
    · intro k hk
      unfold window at hk ⊢
      rw [List.length_take, List.length_drop] at hk
      rw [List.getD_eq_getElem?_getD, List.getD_eq_getElem?_getD]
      rw [List.getElem?_take, if_pos (by omega), List.getElem?_drop]

/-- C3 witness: a three-record store, one index `1`, `before = after = 1`. -/
theorem context_spec_witness :
    context [⟨"a", 1, "f", none, none⟩, ⟨"b", 2, "f", none, none⟩,
        ⟨"c", 3, "f", none, none⟩] [1] 1 1
        = dedupByKey ((([1].map (window [⟨"a", 1, "f", none, none⟩,
            ⟨"b", 2, "f", none, none⟩, ⟨"c", 3, "f", none, none⟩] 1 1))).flatten)
    ∧ ((context [⟨"a", 1, "f", none, none⟩, ⟨"b", 2, "f", none, none⟩,
        ⟨"c", 3, "f", none, none⟩] [1] 1 1).map lineKey).Nodup
    ∧ (∀ r ∈ context [⟨"a", 1, "f", none, none⟩, ⟨"b", 2, "f", none, none⟩,
        ⟨"c", 3, "f", none, none⟩] [1] 1 1,
        r ∈ [⟨"a", 1, "f", none, none⟩, ⟨"b", 2, "f", none, none⟩,
          ⟨"c", 3, "f", none, none⟩])
    ∧ (∀ i ∈ [1],
        (window [⟨"a", 1, "f", none, none⟩, ⟨"b", 2, "f", none, none⟩,
            ⟨"c", 3, "f", none, none⟩] 1 1 i).length
            = min 3 (i + 1 + 1) - (i - 1)
        ∧ ∀ k, k < (window [⟨"a", 1, "f", none, none⟩,
            ⟨"b", 2, "f", none, none⟩, ⟨"c", 3, "f", none, none⟩] 1 1 i).length →
            (window [⟨"a", 1, "f", none, none⟩, ⟨"b", 2, "f", none, none⟩,
              ⟨"c", 3, "f", none, none⟩] 1 1 i).getD k default
              = ([⟨"a", 1, "f", none, none⟩, ⟨"b", 2, "f", none, none⟩,
                  ⟨"c", 3, "f", none, none⟩] : List LogLine).getD
                  (i - 1 + k) default) :=
  context_spec [⟨"a", 1, "f", none, none⟩, ⟨"b", 2, "f", none, none⟩,
    ⟨"c", 3, "f", none, none⟩] [1] 1 1 (by decide)

/-- Python regex `\w` on ASCII text: letters, digits and underscore. -/
def wordChar (c : Char) : Bool := c.isAlphanum || c == '_'

/-- A `\b` word boundary just before a word character, given the previous
character of the text (`none` at the start of the string). -/
def boundaryL (prev : Option Char) : Bool :=
  match prev with
  | none => true
  | some c => !wordChar c

/-- A `\b` word boundary just after a word character, given the following
character of the text (`none` at the end of the string). -/
def boundaryR (next : Option Char) : Bool :=
  match next with
  | none => true
  | some c => !wordChar c

/-- Whether `w` is literally the next run of characters (case-sensitive). -/
def startsWith : List Char → List Char → Bool
  | [], _ => true
  | _ :: _, [] => false
  | a :: as, c :: cs => a == c && startsWith as cs

/-- One alternative of `\b(Exception|Error|Traceback)\b` matching here:
the word is present and is followed by a word boundary. -/
def wordHere (w : String) (cs : List Char) : Bool :=
  startsWith w.data cs && boundaryR ((cs.drop w.data.length).head?)

/-- `PATTERNS['exception']` matches at this position. -/
def exceptionAt (prev : Option Char) (cs : List Char) : Bool :=
  boundaryL prev
    && (wordHere "Exception" cs || wordHere "Error" cs || wordHere "Traceback" cs)

/-- `PATTERNS['exception'].search`: some position of the text matches
`\b(Exception|Error|Traceback)\b` (case-sensitive). -/
def hasExceptionMatch (prev : Option Char) : List Char → Bool
  | [] => false
  | c :: rest => exceptionAt prev (c :: rest) || hasExceptionMatch (some c) rest

/-- `LogHunter.get_errors`: shorthand level filter. -/
def get_errors (lines : List LogLine) : List LogLine :=
  filter_by_level lines ["ERROR", "FATAL", "CRITICAL"]

/-- `LogHunter.get_warnings`: shorthand level filter. -/
def get_warnings (lines : List LogLine) : List LogLine :=
  filter_by_level lines ["WARN", "WARNING"]

/-- `LogHunter.get_exceptions`: lines whose raw text matches the exception
pattern anywhere. -/
def get_exceptions (lines : List LogLine) : List LogLine :=
  lines.filter (fun r => hasExceptionMatch none r.line.data)

/-- The statistics snapshot produced by `get_statistics`; the three optional
time fields model the keys that are only inserted in the dict when at least
one timestamp exists. -/
structure Stats where
  total_lines : Nat
  files : Nat
  levels : String → Nat
  errors : Nat
  warnings : Nat
  exceptions : Nat
  time_start : Option Int
  time_end : Option Int
  time_span : Option Int

/-- `LogHunter.get_statistics`: counts, the level histogram (`Counter` of the
present levels), shorthand error/warning/exception counts, and — when the
list of present timestamps is non-empty — its min, max and their difference
(Python `min`/`max` over the list and subtraction of the results). -/
def get_statistics (lines : List LogLine) : Stats :=
  { total_lines := lines.length
  , files := (lines.map (fun r => r.file_path)).dedup.length
  , levels := fun lv => lines.countP (fun r => r.level == some lv)
  , errors := (get_errors lines).length
  , warnings := (get_warnings lines).length
  , exceptions := (get_exceptions lines).length
  , time_start := (lines.filterMap (fun r => r.timestamp)).min?
  , time_end := (lines.filterMap (fun r => r.timestamp)).max?
  , time_span :=
      match (lines.filterMap (fun r => r.timestamp)).max?,
            (lines.filterMap (fun r => r.timestamp)).min? with
      | some b, some a => some (b - a)
      | _, _ => none }

lemma foldl_min_spec (l : List Int) (a : Int) :
    l.foldl min a ∈ a :: l ∧ l.foldl min a ≤ a ∧ ∀ t ∈ l, l.foldl min a ≤ t := by
  induction l generalizing a with
  | nil => simp
  | cons b t ih =>
    obtain ⟨hmem, hle, hall⟩ := ih (min a b)
    refine ⟨?_, ?_, ?_⟩
    · rcases List.mem_cons.mp hmem with h | h
      · rw [List.foldl_cons, h]
        rcases min_choice a b with hc | hc <;> rw [hc] <;> simp
      · rw [List.foldl_cons]
        exact List.mem_cons.mpr (Or.inr (List.mem_cons.mpr (Or.inr h)))
    · exact le_trans hle (min_le_left a b)
    · intro t' ht'
      rcases List.mem_cons.mp ht' with h | h
      · rw [h]; exact le_trans hle (min_le_right a b)
      · exact hall t' h

lemma foldl_max_spec (l : List Int) (a : Int) :
    l.foldl max a ∈ a :: l ∧ a ≤ l.foldl max a ∧ ∀ t ∈ l, t ≤ l.foldl max a := by
  induction l generalizing a with
  | nil => simp
  | cons b t ih =>
    obtain ⟨hmem, hle, hall⟩ := ih (max a b)
    refine ⟨?_, ?_, ?_⟩
    · rcases List.mem_cons.mp hmem with h | h
      · rw [List.foldl_cons, h]
        rcases max_choice a b with hc | hc <;> rw [hc] <;> simp
      · rw [List.foldl_cons]
        exact List.mem_cons.mpr (Or.inr (List.mem_cons.mpr (Or.inr h)))
    · exact le_trans (le_max_left a b) hle
    · intro t' ht'
      rcases List.mem_cons.mp ht' with h | h
      · rw [h]; exact le_trans (le_max_right a b) hle
      · exact hall t' h

/-- C9: the statistics snapshot carries the minimum timestamp, the maximum
timestamp and their difference exactly when some record has a timestamp; when
no record does, all three fields are absent. -/
theorem get_statistics_time_fields (lines : List LogLine) :
    ((∃ r ∈ lines, r.timestamp ≠ none) →
      ∃ a b, (get_statistics lines).time_start = some a
        ∧ (get_statistics lines).time_end = some b
        ∧ (get_statistics lines).time_span = some (b - a)
        ∧ a ∈ lines.filterMap (fun r => r.timestamp)
        ∧ b ∈ lines.filterMap (fun r => r.timestamp)
        ∧ ∀ t ∈ lines.filterMap (fun r => r.timestamp), a ≤ t ∧ t ≤ b)
    ∧ ((∀ r ∈ lines, r.timestamp = none) →
      (get_statistics lines).time_start = none
      ∧ (get_statistics lines).time_end = none
      ∧ (get_statistics lines).time_span = none) := by
  constructor
  · rintro ⟨r, hr, hts⟩
    obtain ⟨t, ht⟩ := Option.ne_none_iff_exists'.mp hts
    have htm : t ∈ lines.filterMap (fun r => r.timestamp) :=
      List.mem_filterMap.mpr ⟨r, hr, ht⟩
    rcases hl : lines.filterMap (fun r => r.timestamp) with _ | ⟨x, rest⟩
    · rw [hl] at htm; exact absurd htm (List.not_mem_nil t)
    · obtain ⟨hmm, hlm, ham⟩ := foldl_min_spec rest x
      obtain ⟨hmx, hlx, hax⟩ := foldl_max_spec rest x
      refine ⟨rest.foldl min x, rest.foldl max x, ?_, ?_, ?_, ?_, ?_, ?_⟩
      · simp [get_statistics, hl, List.min?]
      · simp [get_statistics, hl, List.max?]
      · simp [get_statistics, hl, List.min?, List.max?]
      · rw [hl]; exact hmm
      · rw [hl]; exact hmx
      · intro u hu
        rw [hl] at hu
        rcases List.mem_cons.mp hu with h | h
        · subst h; exact ⟨hlm, hlx⟩
        · exact ⟨ham u h, hax u h⟩
  · intro hall
    have hl : lines.filterMap (fun r => r.timestamp) = [] :=
      List.filterMap_eq_nil_iff.mpr hall
    refine ⟨?_, ?_, ?_⟩ <;> simp [get_statistics, hl, List.min?, List.max?]

/-- C9 witness: a store with two timestamps, and an all-absent store. -/
theorem get_statistics_time_fields_witness :
    (∃ a b, (get_statistics [⟨"a", 1, "f", some 4, none⟩,
          ⟨"b", 2, "f", some 2, none⟩]).time_start = some a
      ∧ (get_statistics [⟨"a", 1, "f", some 4, none⟩,
          ⟨"b", 2, "f", some 2, none⟩]).time_end = some b
      ∧ (get_statistics [⟨"a", 1, "f", some 4, none⟩,
          ⟨"b", 2, "f", some 2, none⟩]).time_span = some (b - a)
      ∧ a ∈ List.filterMap (fun r : LogLine => r.timestamp)
          [⟨"a", 1, "f", some 4, none⟩, ⟨"b", 2, "f", some 2, none⟩]
      ∧ b ∈ List.filterMap (fun r : LogLine => r.timestamp)
          [⟨"a", 1, "f", some 4, none⟩, ⟨"b", 2, "f", some 2, none⟩]
      ∧ ∀ t ∈ List.filterMap (fun r : LogLine => r.timestamp)
          [⟨"a", 1, "f", some 4, none⟩, ⟨"b", 2, "f", some 2, none⟩],
          a ≤ t ∧ t ≤ b)
    ∧ (get_statistics [⟨"c", 1, "g", none, none⟩]).time_start = none
    ∧ (get_statistics [⟨"c", 1, "g", none, none⟩]).time_end = none
    ∧ (get_statistics [⟨"c", 1, "g", none, none⟩]).time_span = none := by
  constructor
  · exact (get_statistics_time_fields
      [⟨"a", 1, "f", some 4, none⟩, ⟨"b", 2, "f", some 2, none⟩]).1
      ⟨⟨"a", 1, "f", some 4, none⟩, by decide, by decide⟩
  · exact (get_statistics_time_fields [⟨"c", 1, "g", none, none⟩]).2 (by decide)

/-- C10: the `errors` count of the snapshot is the sum of the histogram
entries at ERROR, FATAL and CRITICAL, and `warnings` is the sum of the
entries at WARN and WARNING. -/
theorem errors_warnings_match_histogram (lines : List LogLine) :
    (get_statistics lines).errors
        = (get_statistics lines).levels "ERROR"
          + (get_statistics lines).levels "FATAL"
          + (get_statistics lines).levels "CRITICAL"
    ∧ (get_statistics lines).warnings
        = (get_statistics lines).levels "WARN"
          + (get_statistics lines).levels "WARNING" := by
  simp only [get_statistics, get_errors, get_warnings, filter_by_level]
  rw [← List.countP_eq_length_filter, ← List.countP_eq_length_filter]
  induction lines with
  | nil => simp
  | cons r t ih =>
    simp only [List.countP_cons]
    rcases hlv : r.level with _ | lv
    · have h1 : matches_level r ["ERROR", "FATAL", "CRITICAL"] = false := by
        simp [matches_level, hlv]
      have h2 : matches_level r ["WARN", "WARNING"] = false := by
        simp [matches_level, hlv]
      have h3 : ∀ s : String, ((none : Option String) == some s) = false := by
        intro s; rfl
      obtain ⟨ih1, ih2⟩ := ih
      simp only [h1, h2, h3, Bool.false_eq_true, if_false]
      constructor <;> omega
    · have hmap1 : (["ERROR", "FATAL", "CRITICAL"].map upper)
          = ["ERROR", "FATAL", "CRITICAL"] := by decide
      have hmap2 : (["WARN", "WARNING"].map upper) = ["WARN", "WARNING"] := by decide
      have h1 : matches_level r ["ERROR", "FATAL", "CRITICAL"]
          = (lv == "ERROR" || (lv == "FATAL" || lv == "CRITICAL")) := by
        simp only [matches_level, hlv, hmap1, List.contains_cons]
        simp [List.contains]
      have h2 : matches_level r ["WARN", "WARNING"]
          = (lv == "WARN" || lv == "WARNING") := by
        simp only [matches_level, hlv, hmap2, List.contains_cons]
        simp [List.contains]
      have h3 : ∀ s : String, ((some lv : Option String) == some s) = (lv == s) := by
        intro s; cases hbe : lv == s <;> simp_all
      obtain ⟨ih1, ih2⟩ := ih
      simp only [h1, h2, h3]
      by_cases e1 : lv = "ERROR" <;> by_cases e2 : lv = "FATAL" <;>
        by_cases e3 : lv = "CRITICAL" <;> by_cases e4 : lv = "WARN" <;>
        by_cases e5 : lv = "WARNING" <;>
        simp_all <;> omega

/-- `PATTERNS['timestamp_iso']` matching at the start of the text: the first
19 characters have the shape `\d{4}-\d{2}-\d{2}[T ]\d{2}:\d{2}:\d{2}`. -/
def isoShapeB : List Char → Bool
  | a0 :: a1 :: a2 :: a3 :: a4 :: a5 :: a6 :: a7 :: a8 :: a9 :: a10 :: a11 :: a12
      :: a13 :: a14 :: a15 :: a16 :: a17 :: a18 :: _ =>
    a0.isDigit && a1.isDigit && a2.isDigit && a3.isDigit && a4 == '-'
      && a5.isDigit && a6.isDigit && a7 == '-' && a8.isDigit && a9.isDigit
      && (a10 == 'T' || a10 == ' ') && a11.isDigit && a12.isDigit && a13 == ':'
      && a14.isDigit && a15.isDigit && a16 == ':' && a17.isDigit && a18.isDigit
  | _ => false

/-- `re.search` for the fixed-width ISO pattern: scan positions left to right
and return the 19-character match at the first position that matches. -/
def findIso : List Char → Option (List Char)
  | [] => none
  | c :: rest =>
    if isoShapeB (c :: rest) then some ((c :: rest).take 19) else findIso rest

/-- Gregorian leap-year rule (as used by Python's `datetime`). -/
def isLeap (y : Nat) : Bool := y % 4 == 0 && (y % 100 != 0 || y % 400 == 0)

/-- Days in a month of the proleptic Gregorian calendar. -/
def daysInMonth (y m : Nat) : Nat :=
  if m = 2 then (if isLeap y then 29 else 28)
  else if m = 4 ∨ m = 6 ∨ m = 9 ∨ m = 11 then 30 else 31

/-- Days in year `y` strictly before month `m`. -/
def daysBeforeMonth (y m : Nat) : Nat :=
  (List.range (m - 1)).foldl (fun acc k => acc + daysInMonth y (k + 1)) 0

/-- Python `date.toordinal`: day number with 0001-01-01 as ordinal 1. -/
def dateOrdinal (y m d : Nat) : Nat :=
  365 * (y - 1) + (y - 1) / 4 - (y - 1) / 100 + (y - 1) / 400
    + daysBeforeMonth y m + d

/-- The instant `y-m-d h:mi:s` as seconds from 0001-01-01T00:00:00. -/
def dtSecs (y m d h mi s : Nat) : Int :=
  ((dateOrdinal y m d - 1) * 86400 + h * 3600 + mi * 60 + s : Nat)

/-- `datetime.min` of Python, in seconds (0001-01-01T00:00:00). -/
def dtMin : Int := dtSecs 1 1 1 0 0 0

/-- `datetime.max` of Python truncated to seconds (9999-12-31T23:59:59). -/
def dtMax : Int := dtSecs 9999 12 31 23 59 59

/-- Value of a digit string (most significant first). -/
def digitsVal (ds : List Char) : Nat :=
  ds.foldl (fun a c => a * 10 + (c.toNat - 48)) 0

/-- The field ranges `datetime(y, m, d, h, mi, s)` accepts for the date. -/
def validDate (y m d : Nat) : Bool :=
  decide (1 ≤ y) && decide (y ≤ 9999) && decide (1 ≤ m) && decide (m ≤ 12)
    && decide (1 ≤ d) && decide (d ≤ daysInMonth y m)

/-- The field ranges `datetime(y, m, d, h, mi, s)` accepts for the time. -/
def validTime (h mi s : Nat) : Bool :=
  decide (h ≤ 23) && decide (mi ≤ 59) && decide (s ≤ 59)

/-- Model of `datetime.fromisoformat` restricted to the whole-second shapes
this tool feeds it: `YYYY-MM-DD` and `YYYY-MM-DD[T ]HH:MM:SS`. Returns the
instant in seconds, or `none` where the library raises `ValueError` (wrong
shape, or calendar/time fields out of range, e.g. month 13, Feb 29 of a
non-leap year, second 60, year 0000). -/
def fromiso : List Char → Option Int
  | [y1, y2, y3, y4, s1, m1, m2, s2, d1, d2] =>
    if ([y1, y2, y3, y4, m1, m2, d1, d2].all Char.isDigit)
        && s1 == '-' && s2 == '-' then
      if validDate (digitsVal [y1, y2, y3, y4]) (digitsVal [m1, m2])
          (digitsVal [d1, d2]) then
        some (dtSecs (digitsVal [y1, y2, y3, y4]) (digitsVal [m1, m2])
          (digitsVal [d1, d2]) 0 0 0)
      else none
    else none
  | [y1, y2, y3, y4, s1, m1, m2, s2, d1, d2, sep, h1, h2, c1, mi1, mi2, c2,
      ss1, ss2] =>
    if ([y1, y2, y3, y4, m1, m2, d1, d2, h1, h2, mi1, mi2, ss1, ss2].all
          Char.isDigit)
        && s1 == '-' && s2 == '-' && (sep == 'T' || sep == ' ')
        && c1 == ':' && c2 == ':' then
      if validDate (digitsVal [y1, y2, y3, y4]) (digitsVal [m1, m2])
            (digitsVal [d1, d2])
          && validTime (digitsVal [h1, h2]) (digitsVal [mi1, mi2])
            (digitsVal [ss1, ss2]) then
        some (dtSecs (digitsVal [y1, y2, y3, y4]) (digitsVal [m1, m2])
          (digitsVal [d1, d2]) (digitsVal [h1, h2]) (digitsVal [mi1, mi2])
          (digitsVal [ss1, ss2]))
      else none
    else none
  | _ => none

/-- `line.rstrip('\n\r')`: drop trailing newline and carriage-return
characters. -/
def rstripNewlines (cs : List Char) : List Char :=
  (cs.reverse.dropWhile (fun c => c == '\n' || c == '\r')).reverse

/-- `LogLine._extract_timestamp`: search for the ISO-shaped pattern, replace
spaces of the match by `'T'`, try to parse; any failure yields `None`. -/
def _extract_timestamp (s : String) : Option Int :=
  match findIso s.data with
  | some m => fromiso (m.map (fun c => if c == ' ' then 'T' else c))
  | none => none

/-- The fixed severity vocabulary `LOG_LEVELS`, in source order (the order of
the regex alternation). -/
def LOG_LEVELS : List String :=
  ["TRACE", "DEBUG", "INFO", "WARN", "WARNING", "ERROR", "FATAL", "CRITICAL"]

/-- Case-insensitive literal match of `w` at the start of the text. -/
def ciStarts : List Char → List Char → Bool
  | [], _ => true
  | _ :: _, [] => false
  | a :: as, c :: cs => a.toUpper == c.toUpper && ciStarts as cs

/-- One alternative of `\b(TRACE|...)\b` (IGNORECASE) matching here. -/
def levelHere (prev : Option Char) (cs : List Char) (w : String) : Bool :=
  boundaryL prev && ciStarts w.data cs && boundaryR ((cs.drop w.data.length).head?)

/-- The first alternative (in alternation order) matching at this position;
the uppercased matched text is the vocabulary word itself. -/
def levelAt (prev : Option Char) (cs : List Char) : Option String :=
  LOG_LEVELS.find? (fun w => levelHere prev cs w)

/-- `PATTERNS['log_level'].search`: leftmost position, first alternative. -/
def findLevel (prev : Option Char) : List Char → Option String
  | [] => none
  | c :: rest =>
    match levelAt prev (c :: rest) with
    | some w => some w
    | none => findLevel (some c) rest

/-- `LogLine._extract_level`. -/
def _extract_level (s : String) : Option String := findLevel none s.data

/-- `LogLine.__init__`: strip trailing `\n`/`\r`, then extract the optional
timestamp and level from the stored text. -/
def LogLine.ofLine (line : String) (line_num : Nat) (file_path : String) : LogLine :=
  { line := String.mk (rstripNewlines line.data)
  , line_num := line_num
  , file_path := file_path
  , timestamp := _extract_timestamp (String.mk (rstripNewlines line.data))
  , level := _extract_level (String.mk (rstripNewlines line.data)) }

lemma findIso_eq_none (cs : List Char) :
    findIso cs = none ↔ ∀ i, isoShapeB (cs.drop i) = false := by
  induction cs with
  | nil =>
    simp only [findIso, List.drop_nil, true_iff]
    intro i
    rfl
  | cons c rest ih =>
    rw [findIso]
    by_cases h : isoShapeB (c :: rest) = true
    · simp only [h, if_true]
      constructor
      · intro hno; exact absurd hno (by simp)
      · intro hall; exact absurd (hall 0) (by simp [h])
    · have h' : isoShapeB (c :: rest) = false := Bool.eq_false_iff.mpr h
      simp only [h', Bool.false_eq_true, if_false, ih]
      constructor
      · intro hall i
        cases i with
        | zero => simpa using h'
        | succ j => simpa using hall j
      · intro hall i
        simpa using hall (i + 1)

lemma findIso_eq_some (cs : List Char) (i : Nat)
    (hi : isoShapeB (cs.drop i) = true)
    (hmin : ∀ j, j < i → isoShapeB (cs.drop j) = false) :
    findIso cs = some ((cs.drop i).take 19) := by
  induction cs generalizing i with
  | nil => rw [List.drop_nil] at hi; exact absurd hi (by simp [isoShapeB])
  | cons c rest ih =>
    cases i with
    | zero =>
      rw [List.drop_zero] at hi
      rw [findIso, if_pos hi, List.drop_zero]
    | succ j =>
      have h0 : isoShapeB (c :: rest) = false := by
        simpa using hmin 0 (Nat.succ_pos j)
      rw [findIso, if_neg (by simp [h0])]
      have := ih j (by simpa using hi)
        (fun k hk => by simpa using hmin (k + 1) (by omega))
      simpa using this

/-- C6: Line Record construction extracts the timestamp from the first
(leftmost) substring of the stored text matching
`\d{4}-\d{2}-\d{2}[T ]\d{2}:\d{2}:\d{2}`, with spaces of the match replaced
by `'T'` before parsing; when no substring matches, or when the matched
substring fails to parse as a calendar instant (`fromiso` returns `none`),
the timestamp field is absent.  Construction is a total function, so no
input line can make it fail. -/
theorem extract_timestamp_spec (t : String) (num : Nat) (path : String) :
    ((∀ i, isoShapeB ((LogLine.ofLine t num path).line.data.drop i) = false) →
      (LogLine.ofLine t num path).timestamp = none)
    ∧ (∀ i, isoShapeB ((LogLine.ofLine t num path).line.data.drop i) = true →
        (∀ j, j < i →
          isoShapeB ((LogLine.ofLine t num path).line.data.drop j) = false) →
        (LogLine.ofLine t num path).timestamp
          = fromiso ((((LogLine.ofLine t num path).line.data.drop i).take 19).map
              (fun c => if c == ' ' then 'T' else c))) := by
  constructor
  · intro hall
    have hf : findIso (rstripNewlines t.data) = none :=
      (findIso_eq_none _).mpr (by simpa [LogLine.ofLine] using hall)
    simp [LogLine.ofLine, _extract_timestamp, hf]
  · intro i hi hmin
    have hf : findIso (rstripNewlines t.data)
        = some (((rstripNewlines t.data).drop i).take 19) :=
      findIso_eq_some _ i (by simpa [LogLine.ofLine] using hi)
        (fun j hj => by simpa [LogLine.ofLine] using hmin j hj)
    simp [LogLine.ofLine, _extract_timestamp, hf]

/-- C6 witness: the sample line `"2026-01-10 10:00:00 INFO Test\n"`; the
match is at position 0 and parses (with its space turned into `'T'`). -/
theorem extract_timestamp_spec_witness :
    (LogLine.ofLine "2026-01-10 10:00:00 INFO Test\n" 1 "app.log").timestamp
      = fromiso ((((LogLine.ofLine "2026-01-10 10:00:00 INFO Test\n" 1
          "app.log").line.data.drop 0).take 19).map
          (fun c => if c == ' ' then 'T' else c)) :=
  (extract_timestamp_spec "2026-01-10 10:00:00 INFO Test\n" 1 "app.log").2
    0 (by decide) (fun j hj => absurd hj (by omega))

/-- The ways `parse_time_arg` fails: the `ValueError("Invalid time format:
...")` it raises itself, or the `OverflowError` escaping (uncaught) from
`timedelta` construction or `datetime` subtraction in the relative branch. -/
inductive TimeArgError where
  | overflow : TimeArgError
  | invalidFormat : String → TimeArgError
deriving DecidableEq

/-- `re.match(r'^(\d+)([smhd])$', text)`: one or more digits followed by a
unit letter spanning the whole string; Python's `$` also matches just before
a single trailing `'\n'`. Returns the numeric value and the unit. -/
def relMatch (s : String) : Option (Nat × Char) :=
  go (if s.data.getLast? == some '\n' then s.data.dropLast else s.data)
where
  go (cs : List Char) : Option (Nat × Char) :=
    match cs.getLast? with
    | none => none
    | some u =>
      if (u == 's' || u == 'm' || u == 'h' || u == 'd')
          && !cs.dropLast.isEmpty && cs.dropLast.all Char.isDigit then
        some (digitsVal cs.dropLast, u)
      else none

/-- Seconds per unit letter of the relative form. -/
def multOf (u : Char) : Nat :=
  if u == 's' then 1 else if u == 'm' then 60
  else if u == 'h' then 3600 else 86400

/-- `timedelta(seconds/minutes/hours/days=value)` normalised to seconds;
`none` models the `OverflowError` raised when the normalised day count
exceeds `timedelta.max.days = 999999999`. -/
def timedeltaSecs (secs : Nat) : Option Nat :=
  if secs / 86400 ≤ 999999999 then some secs else none

/-- `datetime.__sub__` with a `timedelta`: `none` models the `OverflowError`
raised when the result leaves the supported `datetime` range. -/
def dtSub (now : Int) (secs : Nat) : Option Int :=
  if dtMin ≤ now - secs ∧ now - secs ≤ dtMax then some (now - secs) else none

/-- `parse_time_arg`, with its two collaborators passed explicitly: the
`datetime.now()` sampled in the relative branch becomes `now`, and the
library call `datetime.fromisoformat` of the absolute branch becomes the
injected parser `isoparse` (`none` standing for the `ValueError` the bare
`except` catches). The function itself only contributes the branch
structure; `fromiso` below is a concrete restricted instance of `isoparse`
used for evaluation. -/
def parse_time_arg (isoparse : String → Option Int) (now : Int)
    (s : String) : Except TimeArgError Int :=
  match relMatch s with
  | some (v, u) =>
    match timedeltaSecs (v * multOf u) with
    | none => .error .overflow
    | some d =>
      match dtSub now d with
      | none => .error .overflow
      | some t => .ok t
  | none =>
    match isoparse s with
    | some t => .ok t
    | none => .error (.invalidFormat s)

/-- C7 counterexample: `"99999999999d"` matches `^(\d+)([smhd])$`, yet the
parser does not return `now` minus that many days — it fails with the
(uncaught) overflow coming from `timedelta(days=99999999999)`, so the
function does not fail only in the invalid-format case. The relative branch
never consults the ISO parser, so any instance (here `fromiso`) exhibits
the failure. -/
theorem parse_time_arg_overflow_counterexample :
    relMatch "99999999999d" = some (99999999999, 'd')
    ∧ parse_time_arg (fun s => fromiso s.data) (dtSecs 2026 10 12 0 0 0)
        "99999999999d"
        = Except.error TimeArgError.overflow
    ∧ parse_time_arg (fun s => fromiso s.data) (dtSecs 2026 10 12 0 0 0)
        "99999999999d"
        ≠ Except.ok ((dtSecs 2026 10 12 0 0 0) - (99999999999 * 86400 : Nat)) := by
  refine ⟨by decide, rfl, ?_⟩
  intro h
  rw [show parse_time_arg (fun s => fromiso s.data) (dtSecs 2026 10 12 0 0 0)
      "99999999999d"
      = Except.error TimeArgError.overflow from rfl] at h
  exact Except.noConfusion h

/-- C7 (amended): for any behaviour `isoparse` of the library parser
`datetime.fromisoformat` and any parse-time `now` within the representable
datetime range: when `text` matches `^(\d+)([smhd])$` the parser returns
`now` minus the denoted amount of seconds/minutes/hours/days provided the
offset stays within `timedelta`'s supported magnitude and the result does
not fall below the minimum representable instant — otherwise the relative
branch fails with an overflow error, not an invalid-format error; when the
text does not match, it returns whatever instant the library parser yields
on it (for valid ISO-8601 text, the instant that text denotes), and it fails
with an invalid-time-format error identifying the offending input exactly
when the library parser fails. -/
theorem parse_time_arg_spec (isoparse : String → Option Int) (now : Int)
    (s : String) (hlo : dtMin ≤ now) (hhi : now ≤ dtMax) :
    (∀ v u, relMatch s = some (v, u) →
      ((v * multOf u) / 86400 ≤ 999999999 ∧ dtMin ≤ now - (v * multOf u : Nat) →
        parse_time_arg isoparse now s = Except.ok (now - (v * multOf u : Nat)))
      ∧ (999999999 < (v * multOf u) / 86400 ∨ now - (v * multOf u : Nat) < dtMin →
        parse_time_arg isoparse now s = Except.error TimeArgError.overflow))
    ∧ (relMatch s = none → ∀ t, isoparse s = some t →
        parse_time_arg isoparse now s = Except.ok t)
    ∧ (relMatch s = none → isoparse s = none →
        parse_time_arg isoparse now s
          = Except.error (TimeArgError.invalidFormat s)) := by
  refine ⟨?_, ?_, ?_⟩
  · intro v u hm
    constructor
    · rintro ⟨h1, h2⟩
      have hup : now - (v * multOf u : Nat) ≤ dtMax := by
        have : (0 : Int) ≤ (v * multOf u : Nat) := Int.ofNat_nonneg _
        omega
      have ht : timedeltaSecs (v * multOf u) = some (v * multOf u) := by
        unfold timedeltaSecs
        rw [if_pos h1]
      have hd : dtSub now (v * multOf u) = some (now - (v * multOf u : Nat)) := by
        unfold dtSub
        rw [if_pos ⟨h2, hup⟩]
      simp only [parse_time_arg, hm, ht, hd]
    · intro h
      rcases h with h | h
      · have ht : timedeltaSecs (v * multOf u) = none := by
          unfold timedeltaSecs
          rw [if_neg (by omega)]
        simp only [parse_time_arg, hm, ht]
      · by_cases h1 : (v * multOf u) / 86400 ≤ 999999999
        · have ht : timedeltaSecs (v * multOf u) = some (v * multOf u) := by
            unfold timedeltaSecs
            rw [if_pos h1]
          have hd : dtSub now (v * multOf u) = none := by
            unfold dtSub
            rw [if_neg ?hc]
            case hc => intro hc; exact absurd hc.1 (by omega)
          simp only [parse_time_arg, hm, ht, hd]
        · have ht : timedeltaSecs (v * multOf u) = none := by
            unfold timedeltaSecs
            rw [if_neg (by omega)]
          simp only [parse_time_arg, hm, ht]
  · intro hm t ht
    simp only [parse_time_arg, hm, ht]
  · intro hm ht
    simp only [parse_time_arg, hm, ht]

/-- C7 witness: with the concrete parser instance `fromiso` and
`now` = 2026-10-12T00:00:00: `"2h"` parses to `now - 7200` seconds;
`"2026-01-10"` takes the absolute branch and yields the denoted instant;
`"nope"` fails with the invalid-format error naming it. -/
theorem parse_time_arg_spec_witness :
    parse_time_arg (fun s => fromiso s.data) (dtSecs 2026 10 12 0 0 0) "2h"
      = Except.ok ((dtSecs 2026 10 12 0 0 0) - (2 * multOf 'h' : Nat))
    ∧ parse_time_arg (fun s => fromiso s.data) (dtSecs 2026 10 12 0 0 0)
        "2026-01-10"
      = Except.ok (dtSecs 2026 1 10 0 0 0)
    ∧ parse_time_arg (fun s => fromiso s.data) (dtSecs 2026 10 12 0 0 0) "nope"
      = Except.error (TimeArgError.invalidFormat "nope") := by
  refine ⟨?_, ?_, ?_⟩
  · exact ((parse_time_arg_spec (fun s => fromiso s.data)
      (dtSecs 2026 10 12 0 0 0) "2h" (by decide)
      (by decide)).1 2 'h' (by decide)).1 (by decide)
  · exact (parse_time_arg_spec (fun s => fromiso s.data)
      (dtSecs 2026 10 12 0 0 0) "2026-01-10" (by decide)
      (by decide)).2.1 (by decide) (dtSecs 2026 1 10 0 0 0) (by decide)
  · exact (parse_time_arg_spec (fun s => fromiso s.data)
      (dtSecs 2026 10 12 0 0 0) "nope" (by decide)
      (by decide)).2.2 (by decide) (by decide)

/-- `PATTERNS['timestamp_common']` matching at the start of the text: the
first 20 characters have the shape `\d{2}/\w{3}/\d{4}:\d{2}:\d{2}:\d{2}`. -/
def commonShapeB : List Char → Bool
  | a0 :: a1 :: a2 :: a3 :: a4 :: a5 :: a6 :: a7 :: a8 :: a9 :: a10 :: a11
      :: a12 :: a13 :: a14 :: a15 :: a16 :: a17 :: a18 :: a19 :: _ =>
    a0.isDigit && a1.isDigit && a2 == '/' && wordChar a3 && wordChar a4
      && wordChar a5 && a6 == '/' && a7.isDigit && a8.isDigit && a9.isDigit
      && a10.isDigit && a11 == ':' && a12.isDigit && a13.isDigit && a14 == ':'
      && a15.isDigit && a16.isDigit && a17 == ':' && a18.isDigit && a19.isDigit
  | _ => false

/-- Match attempt of the ISO timestamp pattern at one position (fixed width,
no boundary context needed). -/
def isoLenAt (_ : Option Char) (cs : List Char) : Option Nat :=
  if isoShapeB cs then some 19 else none

/-- Match attempt of the common-log-format timestamp pattern at one
position. -/
def commonLenAt (_ : Option Char) (cs : List Char) : Option Nat :=
  if commonShapeB cs then some 20 else none

/-- Length of the leading run of ASCII digits. -/
def leadingDigits : List Char → Nat
  | [] => 0
  | c :: rest => if c.isDigit then leadingDigits rest + 1 else 0

/-- Greedy `\d{1,3}\.`: with `r` leading digits this matches exactly when
`1 ≤ r ≤ 3` and a dot follows them (backtracking to fewer digits always
meets another digit instead of the dot, so the match is deterministic). -/
def octetDot (cs : List Char) : Option Nat :=
  if 1 ≤ leadingDigits cs ∧ leadingDigits cs ≤ 3
      ∧ (cs.drop (leadingDigits cs)).head? = some '.' then
    some (leadingDigits cs + 1)
  else none

/-- Match attempt of `PATTERNS['ip_address']`,
`\b(?:\d{1,3}\.){3}\d{1,3}\b`, at one position: leading word boundary, three
digit-dot octets, then `1 ≤ r ≤ 3` final digits followed by a word boundary
(for the final octet, backtracking to fewer digits always leaves a digit —
a word character — after the match, so it never helps). -/
def ipLenAt (prev : Option Char) (cs : List Char) : Option Nat :=
  if !boundaryL prev then none
  else
    match octetDot cs with
    | none => none
    | some l1 =>
      match octetDot (cs.drop l1) with
      | none => none
      | some l2 =>
        match octetDot ((cs.drop l1).drop l2) with
        | none => none
        | some l3 =>
          if 1 ≤ leadingDigits (((cs.drop l1).drop l2).drop l3)
              ∧ leadingDigits (((cs.drop l1).drop l2).drop l3) ≤ 3
              ∧ boundaryR (((((cs.drop l1).drop l2).drop l3).drop
                  (leadingDigits (((cs.drop l1).drop l2).drop l3))).head?) then
            some (l1 + l2 + l3 + leadingDigits (((cs.drop l1).drop l2).drop l3))
          else none

/-- Match attempt of `\b\d+\b` at one position: a word boundary, all `r ≥ 1`
leading digits (greedy `\d+`; fewer digits would leave a digit after the
match and fail the trailing boundary), then a word boundary. -/
def numLenAt (prev : Option Char) (cs : List Char) : Option Nat :=
  if !boundaryL prev then none
  else
    if 1 ≤ leadingDigits cs ∧ boundaryR ((cs.drop (leadingDigits cs)).head?) then
      some (leadingDigits cs)
    else none

/-- One `re.sub` pass: scan positions of the original text left to right; at
a match of length `l + 1` emit the replacement and resume after the match
(the previous-character context for later `\b` tests is the last consumed
original character); otherwise copy one character and advance. The fuel is
only a structural-recursion bound; `length + 1` always suffices. -/
def subScan (m : Option Char → List Char → Option Nat) (repl : List Char) :
    Nat → Option Char → List Char → List Char
  | 0, _, cs => cs
  | fuel + 1, prev, cs =>
    match m prev cs with
    | some (l + 1) =>
      repl ++ subScan m repl fuel cs[l]? (cs.drop (l + 1))
    | _ =>
      match cs with
      | [] => []
      | c :: rest => c :: subScan m repl fuel (some c) rest

/-- `pattern.sub(repl, text)` for one of the four normalisation patterns. -/
def subAll (m : Option Char → List Char → Option Nat) (repl : String)
    (s : String) : String :=
  String.mk (subScan m repl.data (s.data.length + 1) none s.data)

/-- The normalisation of `get_top_patterns`: ISO timestamps, then common-log
timestamps, then IPs, then standalone integers, each substitution applied to
the output of the previous one. -/
def normalizePattern (s : String) : String :=
  subAll numLenAt "[NUM]"
    (subAll ipLenAt "[IP]"
      (subAll commonLenAt "[TIMESTAMP]"
        (subAll isoLenAt "[TIMESTAMP]" s)))

/-- The normalised texts of all records of the store, in store order. -/
def normalizedLines (lines : List LogLine) : List String :=
  lines.map (fun r => normalizePattern r.line)

/-- One step of `Counter(...)` construction: increment the count of `key`,
inserting it at the end of the dict on first sight (Python dicts preserve
insertion order). -/
def bump (acc : List (String × Nat)) (key : String) : List (String × Nat) :=
  if acc.any (fun p => p.1 == key) then
    acc.map (fun p => if p.1 == key then (p.1, p.2 + 1) else p)
  else acc ++ [(key, 1)]

/-- `Counter(normalized)`: count-by-key in first-encounter order. -/
def counterOf (l : List String) : List (String × Nat) := l.foldl bump []

/-- The insertion step of a stable descending sort by count: `x` goes after
every entry whose count is at least its own. -/
def insertDesc (x : String × Nat) : List (String × Nat) → List (String × Nat)
  | [] => [x]
  | y :: ys => if x.2 ≤ y.2 then y :: insertDesc x ys else x :: y :: ys

/-- Stable descending sort by count (left-to-right insertion sort). -/
def sortDesc (l : List (String × Nat)) : List (String × Nat) :=
  l.foldl (fun acc x => insertDesc x acc) []

/-- `Counter.most_common(n)`: documented as
`sorted(items, key=count, reverse=True)[:n]` with a stable sort. -/
def most_common (c : List (String × Nat)) (n : Nat) : List (String × Nat) :=
  (sortDesc c).take n

/-- `LogHunter.get_top_patterns`. -/
def get_top_patterns (lines : List LogLine) (n : Nat) : List (String × Nat) :=
  most_common (counterOf (normalizedLines lines)) n

/-- The distinct strings of `l`, in order of first occurrence. -/
def firstOcc : List String → List String
  | [] => []
  | x :: xs => x :: firstOcc (xs.filter (fun y => !(y == x)))
termination_by l => l.length
decreasing_by exact Nat.lt_succ_of_le (List.length_filter_le _ _)

lemma firstOcc_subset_aux :
    ∀ (n : Nat) (l : List String), l.length = n → ∀ x ∈ firstOcc l, x ∈ l := by
  intro n
  induction n using Nat.strong_induction_on with
  | _ n ih =>
    intro l hn
    rcases l with _ | ⟨a, rest⟩
    · rw [firstOcc]; intro x hx; exact absurd hx (List.not_mem_nil x)
    · rw [firstOcc]
      intro x hx
      rcases List.mem_cons.mp hx with h | h
      · exact h ▸ List.mem_cons_self a rest
      · have hlt : (rest.filter (fun y => !(y == a))).length < n := by
          have := List.length_filter_le (fun y => !(y == a)) rest
          simp only [← hn, List.length_cons]
          omega
        exact List.mem_cons_of_mem a
          (List.mem_of_mem_filter (ih _ hlt _ rfl x h))

lemma firstOcc_subset (l : List String) : ∀ x ∈ firstOcc l, x ∈ l :=
  firstOcc_subset_aux l.length l rfl

lemma mem_firstOcc_aux :
    ∀ (n : Nat) (l : List String), l.length = n → ∀ x ∈ l, x ∈ firstOcc l := by
  intro n
  induction n using Nat.strong_induction_on with
  | _ n ih =>
    intro l hn
    rcases l with _ | ⟨a, rest⟩
    · intro x hx; exact absurd hx (List.not_mem_nil x)
    · intro x hx
      rw [firstOcc]
      by_cases hxa : x = a
      · exact hxa ▸ List.mem_cons_self a _
      · rcases List.mem_cons.mp hx with h | h
        · exact absurd h hxa
        · have hlt : (rest.filter (fun y => !(y == a))).length < n := by
            have := List.length_filter_le (fun y => !(y == a)) rest
            simp only [← hn, List.length_cons]
            omega
          refine List.mem_cons_of_mem a (ih _ hlt _ rfl x ?_)
          exact List.mem_filter.mpr ⟨h, by simp [hxa]⟩

lemma mem_firstOcc (l : List String) : ∀ x ∈ l, x ∈ firstOcc l :=
  mem_firstOcc_aux l.length l rfl

lemma firstOcc_nodup_aux :
    ∀ (n : Nat) (l : List String), l.length = n → (firstOcc l).Nodup := by
  intro n
  induction n using Nat.strong_induction_on with
  | _ n ih =>
    intro l hn
    rcases l with _ | ⟨a, rest⟩
    · rw [firstOcc]; exact List.nodup_nil
    · rw [firstOcc]
      have hlt : (rest.filter (fun y => !(y == a))).length < n := by
        have := List.length_filter_le (fun y => !(y == a)) rest
        simp only [← hn, List.length_cons]
        omega
      refine List.nodup_cons.mpr ⟨?_, ih _ hlt _ rfl⟩
      intro hmem
      have := List.of_mem_filter (firstOcc_subset _ a hmem)
      simp at this

lemma firstOcc_nodup (l : List String) : (firstOcc l).Nodup :=
  firstOcc_nodup_aux l.length l rfl

lemma firstOcc_append_single_aux :
    ∀ (n : Nat) (l : List String), l.length = n → ∀ (s : String),
    firstOcc (l ++ [s]) = if s ∈ l then firstOcc l else firstOcc l ++ [s] := by
  intro n
  induction n using Nat.strong_induction_on with
  | _ n ih =>
    intro l hn s
    rcases l with _ | ⟨a, rest⟩
    · rw [List.nil_append]
      simp [firstOcc]
    · rw [List.cons_append, firstOcc, firstOcc, List.filter_append]
      by_cases hsa : s = a
      · have : [s].filter (fun y => !(y == a)) = [] := by
          subst hsa; simp
        rw [this, List.append_nil, if_pos (by simp [hsa])]
      · have hfs : [s].filter (fun y => !(y == a)) = [s] := by
          simp [hsa]
        rw [hfs]
        have hlt : (rest.filter (fun y => !(y == a))).length < n := by
          have := List.length_filter_le (fun y => !(y == a)) rest
          simp only [← hn, List.length_cons]
          omega
        rw [ih _ hlt _ rfl s]
        by_cases hm : s ∈ rest.filter (fun y => !(y == a))
        · rw [if_pos hm, if_pos]
          exact List.mem_cons_of_mem a (List.mem_of_mem_filter hm)
        · rw [if_neg hm, if_neg, List.cons_append]
          intro hc
          rcases List.mem_cons.mp hc with h | h
          · exact hsa h
          · exact hm (List.mem_filter.mpr ⟨h, by simp [hsa]⟩)

lemma firstOcc_append_single (l : List String) (s : String) :
    firstOcc (l ++ [s]) = if s ∈ l then firstOcc l else firstOcc l ++ [s] :=
  firstOcc_append_single_aux l.length l rfl s

/-- Invariant of `Counter` construction after processing `pre`: the keys are
the distinct processed strings in first-encounter order, and each entry holds
the number of occurrences of its key among the processed strings. -/
def CounterInv (pre : List String) (acc : List (String × Nat)) : Prop :=
  acc.map Prod.fst = firstOcc pre ∧ ∀ p ∈ acc, p.2 = pre.count p.1

lemma counterInv_nil : CounterInv [] [] :=
  ⟨by simp [firstOcc], by simp⟩

lemma counterInv_bump (pre : List String) (acc : List (String × Nat))
    (s : String) (h : CounterInv pre acc) :
    CounterInv (pre ++ [s]) (bump acc s) := by
  obtain ⟨hkeys, hcnt⟩ := h
  by_cases hmem : acc.any (fun p => p.1 == s)
  · have hsk : s ∈ acc.map Prod.fst := by
      rcases List.any_eq_true.mp hmem with ⟨p, hp, he⟩
      have hps : p.1 = s := by simpa using he
      exact hps ▸ List.mem_map_of_mem Prod.fst hp
    have hspre : s ∈ pre := firstOcc_subset pre s (hkeys ▸ hsk)
    constructor
    · rw [bump, if_pos hmem, firstOcc_append_single, if_pos hspre, ← hkeys]
      rw [List.map_map]
      apply List.map_congr_left
      intro p _
      by_cases hps : p.1 = s <;> simp [hps]
    · intro p hp
      rw [bump, if_pos hmem] at hp
      rcases List.mem_map.mp hp with ⟨q, hq, hfq⟩
      by_cases hqs : q.1 = s
      · have hpq : p = (q.1, q.2 + 1) := by rw [← hfq]; simp [hqs]
        rw [hpq, List.count_append]
        have h1 : List.count q.1 [s] = 1 := by simp [hqs]
        rw [h1, ← hcnt q hq]
      · have hpq : p = q := by rw [← hfq]; simp [hqs]
        rw [hpq, List.count_append]
        have h0 : List.count q.1 [s] = 0 := by simp [hqs]
        rw [h0, ← hcnt q hq]
        omega
  · have hsk : s ∉ acc.map Prod.fst := by
      intro hc
      rcases List.mem_map.mp hc with ⟨p, hp, hps⟩
      exact hmem (List.any_eq_true.mpr ⟨p, hp, by simp [hps]⟩)
    have hspre : s ∉ pre := fun hc => hsk (hkeys ▸ mem_firstOcc pre s hc)
    constructor
    · rw [bump, if_neg hmem, List.map_append, firstOcc_append_single,
        if_neg hspre, ← hkeys]
      rfl
    · intro p hp
      rw [bump, if_neg hmem] at hp
      rcases List.mem_append.mp hp with hin | hin
      · have hne : p.1 ≠ s :=
          fun hc => hsk (hc ▸ List.mem_map_of_mem Prod.fst hin)
        rw [List.count_append]
        have h0 : List.count p.1 [s] = 0 := by simp [hne]
        rw [h0, ← hcnt p hin]
        omega
      · have hps : p = (s, 1) := by simpa using hin
        rw [hps, List.count_append]
        have h0 : pre.count s = 0 := List.count_eq_zero.mpr hspre
        simp [h0]

lemma counterOf_inv_go :
    ∀ (l pre : List String) (acc : List (String × Nat)),
      CounterInv pre acc → CounterInv (pre ++ l) (l.foldl bump acc) := by
  intro l
  induction l with
  | nil => intro pre acc h; simpa using h
  | cons s t ih =>
    intro pre acc h
    have h1 := ih (pre ++ [s]) (bump acc s) (counterInv_bump pre acc s h)
    simpa [List.append_assoc] using h1

lemma counterOf_inv (l : List String) : CounterInv l (counterOf l) := by
  have h := counterOf_inv_go l [] [] counterInv_nil
  simpa [counterOf] using h

lemma insertDesc_perm (x : String × Nat) (l : List (String × Nat)) :
    (insertDesc x l).Perm (x :: l) := by
  induction l with
  | nil => exact List.Perm.refl _
  | cons y ys ih =>
    rw [insertDesc]
    by_cases h : x.2 ≤ y.2
    · rw [if_pos h]
      exact (List.Perm.cons y ih).trans (List.Perm.swap x y ys)
    · rw [if_neg h]

lemma sortDesc_go_perm :
    ∀ (l acc : List (String × Nat)),
      (l.foldl (fun acc x => insertDesc x acc) acc).Perm (acc ++ l) := by
  intro l
  induction l with
  | nil => intro acc; simp
  | cons x t ih =>
    intro acc
    refine ((ih (insertDesc x acc)).trans ?_)
    refine (((insertDesc_perm x acc).append_right t).trans ?_)
    exact List.perm_middle.symm

lemma sortDesc_perm (l : List (String × Nat)) : (sortDesc l).Perm l := by
  simpa [sortDesc] using sortDesc_go_perm l []

lemma insertDesc_pairwise (x : String × Nat) (l : List (String × Nat))
    (h : l.Pairwise (fun a b => b.2 ≤ a.2)) :
    (insertDesc x l).Pairwise (fun a b => b.2 ≤ a.2) := by
  induction l with
  | nil => simp [insertDesc]
  | cons y ys ih =>
    obtain ⟨hy, hys⟩ := List.pairwise_cons.mp h
    rw [insertDesc]
    by_cases hc : x.2 ≤ y.2
    · rw [if_pos hc]
      refine List.pairwise_cons.mpr ⟨?_, ih hys⟩
      intro z hz
      rcases List.mem_cons.mp ((insertDesc_perm x ys).mem_iff.mp hz) with hzx | hz'
      · rw [hzx]; exact hc
      · exact hy z hz'
    · rw [if_neg hc]
      push_neg at hc
      refine List.pairwise_cons.mpr ⟨?_, h⟩
      intro z hz
      rcases List.mem_cons.mp hz with hzy | hz'
      · rw [hzy]; exact le_of_lt hc
      · exact le_trans (hy z hz') (le_of_lt hc)

lemma sortDesc_go_pairwise :
    ∀ (l acc : List (String × Nat)),
      acc.Pairwise (fun a b => b.2 ≤ a.2) →
      (l.foldl (fun acc x => insertDesc x acc) acc).Pairwise
        (fun a b => b.2 ≤ a.2) := by
  intro l
  induction l with
  | nil => intro acc h; simpa using h
  | cons x t ih =>
    intro acc h
    exact ih (insertDesc x acc) (insertDesc_pairwise x acc h)

lemma sortDesc_pairwise (l : List (String × Nat)) :
    (sortDesc l).Pairwise (fun a b => b.2 ≤ a.2) := by
  simpa [sortDesc] using sortDesc_go_pairwise l [] (by simp)

lemma filter_insertDesc (c : Nat) (x : String × Nat)
    (l : List (String × Nat)) (h : l.Pairwise (fun a b => b.2 ≤ a.2)) :
    (insertDesc x l).filter (fun p => p.2 == c)
      = if x.2 = c then l.filter (fun p => p.2 == c) ++ [x]
        else l.filter (fun p => p.2 == c) := by
  induction l with
  | nil => by_cases hxc : x.2 = c <;> simp [insertDesc, hxc]
  | cons y ys ih =>
    obtain ⟨hy, hys⟩ := List.pairwise_cons.mp h
    rw [insertDesc]
    by_cases hc : x.2 ≤ y.2
    · rw [if_pos hc, List.filter_cons, List.filter_cons, ih hys]
      by_cases hxc : x.2 = c <;> by_cases hyc : y.2 = c <;>
        simp [hxc, hyc]
    · rw [if_neg hc]
      push_neg at hc
      by_cases hxc : x.2 = c
      · have hnil : (y :: ys).filter (fun p => p.2 == c) = [] := by
          apply List.filter_eq_nil_iff.mpr
          intro z hz
          have hz2 : z.2 ≤ y.2 := by
            rcases List.mem_cons.mp hz with hzy | hz'
            · rw [hzy]
            · exact hy z hz'
          simp only [beq_iff_eq]
          omega
        rw [List.filter_cons, hnil, if_pos hxc]
        simp [hxc]
      · rw [List.filter_cons]
        simp [hxc]

lemma filter_sortDesc_go (c : Nat) :
    ∀ (l acc : List (String × Nat)),
      acc.Pairwise (fun a b => b.2 ≤ a.2) →
      (l.foldl (fun acc x => insertDesc x acc) acc).filter (fun p => p.2 == c)
        = acc.filter (fun p => p.2 == c) ++ l.filter (fun p => p.2 == c) := by
  intro l
  induction l with
  | nil => intro acc h; simp
  | cons x t ih =>
    intro acc h
    rw [List.foldl_cons, ih (insertDesc x acc) (insertDesc_pairwise x acc h),
      filter_insertDesc c x acc h, List.filter_cons]
    by_cases hxc : x.2 = c <;> simp [hxc]

lemma filter_sortDesc (c : Nat) (l : List (String × Nat)) :
    (sortDesc l).filter (fun p => p.2 == c) = l.filter (fun p => p.2 == c) := by
  simpa [sortDesc] using filter_sortDesc_go c l [] (by simp)

/-- C8: `get_top_patterns(n)` counts the records by their normalised text
(the four substitutions applied sequentially in source order inside
`normalizePattern`) and returns at most `n` entries such that: every entry
pairs a normalised text of the store with its exact number of occurrences;
the keys are pairwise distinct; the counts are non-increasing; within each
count value the keys keep first-encounter order (they form a sublist of the
distinct normalised texts in first-occurrence order); any normalised text
left out has a count no larger than every returned one, and then exactly `n`
entries were returned; and the result length is `n` clamped to the number of
distinct normalised texts. -/
theorem get_top_patterns_spec (lines : List LogLine) (n : Nat) :
    (∀ p ∈ get_top_patterns lines n,
      p.1 ∈ normalizedLines lines ∧ p.2 = (normalizedLines lines).count p.1)
    ∧ ((get_top_patterns lines n).map Prod.fst).Nodup
    ∧ (get_top_patterns lines n).Pairwise (fun a b => b.2 ≤ a.2)
    ∧ (∀ c, (((get_top_patterns lines n).filter (fun p => p.2 == c)).map
        Prod.fst).Sublist (firstOcc (normalizedLines lines)))
    ∧ (∀ s ∈ normalizedLines lines,
        s ∉ (get_top_patterns lines n).map Prod.fst →
        (get_top_patterns lines n).length = n
        ∧ ∀ p ∈ get_top_patterns lines n,
            (normalizedLines lines).count s ≤ p.2)
    ∧ (get_top_patterns lines n).length
        = min n (firstOcc (normalizedLines lines)).length := by
  obtain ⟨hkeys, hcnt⟩ := counterOf_inv (normalizedLines lines)
  have hperm := sortDesc_perm (counterOf (normalizedLines lines))
  have hpw := sortDesc_pairwise (counterOf (normalizedLines lines))
  have hres : get_top_patterns lines n
      = (sortDesc (counterOf (normalizedLines lines))).take n := rfl
  refine ⟨?_, ?_, ?_, ?_, ?_, ?_⟩
  · intro p hp
    have hp' : p ∈ counterOf (normalizedLines lines) :=
      hperm.mem_iff.mp (List.take_subset n _ (hres ▸ hp))
    have hk : p.1 ∈ firstOcc (normalizedLines lines) :=
      hkeys ▸ List.mem_map_of_mem Prod.fst hp'
    exact ⟨firstOcc_subset _ p.1 hk, hcnt p hp'⟩
  · have hnd : ((sortDesc (counterOf (normalizedLines lines))).map
        Prod.fst).Nodup := by
      refine (List.Perm.nodup_iff (hperm.map Prod.fst)).mpr ?_
      rw [hkeys]
      exact firstOcc_nodup _
    rw [hres]
    exact hnd.sublist (List.Sublist.map Prod.fst (List.take_sublist n _))
  · rw [hres]
    exact hpw.sublist (List.take_sublist n _)
  · intro c
    have h1 : ((get_top_patterns lines n).filter
        (fun p => p.2 == c)).Sublist ((sortDesc
          (counterOf (normalizedLines lines))).filter (fun p => p.2 == c)) := by
      rw [hres]
      exact List.Sublist.filter _ (List.take_sublist n _)
    rw [filter_sortDesc] at h1
    have h2 := List.Sublist.map Prod.fst
      (h1.trans (List.filter_sublist (counterOf (normalizedLines lines))))
    rw [hkeys] at h2
    exact h2
  · intro s hs hnot
    have hsf : s ∈ firstOcc (normalizedLines lines) := mem_firstOcc _ s hs
    rw [← hkeys] at hsf
    rcases List.mem_map.mp hsf with ⟨q, hq, hqs⟩
    have hq' : q ∈ sortDesc (counterOf (normalizedLines lines)) :=
      hperm.mem_iff.mpr hq
    have hqnot : q ∉ get_top_patterns lines n := by
      intro hc
      exact hnot (hqs ▸ List.mem_map_of_mem Prod.fst hc)
    have hsplit := List.take_append_drop n
      (sortDesc (counterOf (normalizedLines lines)))
    have hqdrop : q ∈ (sortDesc (counterOf (normalizedLines lines))).drop n := by
      rcases List.mem_append.mp (by rw [hsplit]; exact hq') with h | h
      · exact absurd h (hres ▸ hqnot)
      · exact h
    have hlen : n < (sortDesc (counterOf (normalizedLines lines))).length := by
      have h1 : ((sortDesc (counterOf (normalizedLines lines))).drop n) ≠ [] :=
        List.ne_nil_of_mem hqdrop
      have h2 := List.length_drop n (sortDesc (counterOf (normalizedLines lines)))
      rcases Nat.lt_or_ge n (sortDesc (counterOf (normalizedLines lines))).length
        with h | h
      · exact h
      · exact absurd (List.drop_eq_nil_of_le h) h1
    constructor
    · rw [hres, List.length_take]
      omega
    · intro p hp
      have hpairs := (List.pairwise_append.mp (hsplit ▸ hpw)).2.2
      have hle := hpairs p (hres ▸ hp) q hqdrop
      have hq2 : q.2 = List.count s (normalizedLines lines) := by
        rw [hcnt q hq, hqs]
      rw [← hq2]
      exact hle
  · rw [hres, List.length_take, hperm.length_eq, ← hkeys, List.length_map]

/-- C8 witness: three lines normalising to `"a [IP]"` (twice) and
`"b [NUM]"`; with `n = 1` the top entry is the IP pattern with count 2, the
result has length 1, and the left-out pattern's count bounds no entry from
above. -/
theorem get_top_patterns_spec_witness :
    (("a [IP]", 2).1 ∈ normalizedLines
        [⟨"a 1.2.3.4", 1, "f", none, none⟩, ⟨"a 5.6.7.8", 2, "f", none, none⟩,
         ⟨"b 12", 3, "f", none, none⟩]
      ∧ ("a [IP]", 2).2 = (normalizedLines
          [⟨"a 1.2.3.4", 1, "f", none, none⟩, ⟨"a 5.6.7.8", 2, "f", none, none⟩,
           ⟨"b 12", 3, "f", none, none⟩]).count ("a [IP]", 2).1)
    ∧ (get_top_patterns
        [⟨"a 1.2.3.4", 1, "f", none, none⟩, ⟨"a 5.6.7.8", 2, "f", none, none⟩,
         ⟨"b 12", 3, "f", none, none⟩] 1).length = 1
    ∧ ∀ p ∈ get_top_patterns
        [⟨"a 1.2.3.4", 1, "f", none, none⟩, ⟨"a 5.6.7.8", 2, "f", none, none⟩,
         ⟨"b 12", 3, "f", none, none⟩] 1,
        (normalizedLines
          [⟨"a 1.2.3.4", 1, "f", none, none⟩, ⟨"a 5.6.7.8", 2, "f", none, none⟩,
           ⟨"b 12", 3, "f", none, none⟩]).count "b [NUM]" ≤ p.2 := by
  refine ⟨(get_top_patterns_spec
      [⟨"a 1.2.3.4", 1, "f", none, none⟩, ⟨"a 5.6.7.8", 2, "f", none, none⟩,
       ⟨"b 12", 3, "f", none, none⟩] 1).1 ("a [IP]", 2) (by decide), ?_, ?_⟩
  · exact ((get_top_patterns_spec
      [⟨"a 1.2.3.4", 1, "f", none, none⟩, ⟨"a 5.6.7.8", 2, "f", none, none⟩,
       ⟨"b 12", 3, "f", none, none⟩] 1).2.2.2.2.1 "b [NUM]"
      (by decide) (by decide)).1
  · exact ((get_top_patterns_spec
      [⟨"a 1.2.3.4", 1, "f", none, none⟩, ⟨"a 5.6.7.8", 2, "f", none, none⟩,
       ⟨"b 12", 3, "f", none, none⟩] 1).2.2.2.2.1 "b [NUM]"
      (by decide) (by decide)).2

end LogHunter
